import Mathlib

/-!
Verification of the externalDocsUrl bookmarklet (most evolved variant,
the document whose functions are `resolveExternalDocsUrls`,
`buildFragmentFromMatches`, `collectMatchingNodes`, `sanitizePath`,
`replaceTextNodeWithDocsLinks`, `installDelegatedHandlers`).

The embedding models strings as `List Char`.  The browser's `new URL`
validity check is modelled as an oracle `valid : List Char → Bool`
passed to the replacement engine; `console.warn` diagnostics are
modelled as an explicit list of (original match text, attempted URL)
pairs; the DOM is a mutually inductive tree of text nodes and elements.
-/

set_option maxRecDepth 8000

namespace Bookmarklet

/-- Allow-listed path characters of PLACEHOLDER_PATTERN: the regex
character class with word chars (ASCII letters, digits, underscore),
dot, slash, hash, question mark, ampersand, equals, percent, plus,
tilde, colon, comma and hyphen. -/
def allowedPathChar (c : Char) : Bool :=
  c.isAlpha || c.isDigit || c = '_' || c = '.' || c = '/' || c = '#' || c = '?' ||
    c = '&' || c = '=' || c = '%' || c = '+' || c = '~' || c = ':' || c = ',' || c = '-'

/-- The literal placeholder marker PLACEHOLDER. -/
def MARKER : List Char := "${externalDocsUrl}".data

/-- The fixed documentation base URL DOCS_BASE_URL. -/
def DOCS_BASE_URL : List Char := "https://docs.github.com/en/enterprise-cloud@latest/".data

/-- Model of a JS regex match object for PLACEHOLDER_PATTERN: the match
index, the whole matched text (match[0]) and the captured path (match[1]). -/
structure PMatch where
  index : Nat
  raw : List Char
  path : List Char
deriving DecidableEq, Repr

/-- Attempt to match PLACEHOLDER_PATTERN at the very start of `s`:
the marker, a slash, then a maximal nonempty run of allow-listed
characters (the regex `+` is greedy and nothing follows it, so the
regex engine takes the maximal run).  Returns the captured path. -/
def tryMatchAt (s : List Char) : Option (List Char) :=
  if (MARKER ++ ['/']).isPrefixOf s then
    let path := (s.drop 19).takeWhile allowedPathChar
    if path.isEmpty then none else some path
  else none

/-- Fuel-driven scan modelling `text.matchAll(PLACEHOLDER_PATTERN)`:
the regex engine finds the leftmost match at or after the current
position, yields it, and resumes right after the matched text.
Positions with no match advance by one character.  `fuel ≥ s.length`
makes the recursion total and is maintained by every call. -/
def scanAux : Nat → List Char → Nat → List PMatch
  | 0, _, _ => []
  | _ + 1, [], _ => []
  | fuel + 1, c :: rest, i =>
    match tryMatchAt (c :: rest) with
    | some path =>
      ⟨i, MARKER ++ '/' :: path, path⟩ ::
        scanAux fuel (rest.drop (18 + path.length)) (i + 19 + path.length)
    | none => scanAux fuel rest (i + 1)

/-- All matches of PLACEHOLDER_PATTERN in `text`, leftmost first. -/
def findMatches (text : List Char) : List PMatch := scanAux text.length text 0

/-- Model of JS `String.prototype.includes`, used as the cheap
substring pre-filter in collectMatchingNodes. -/
def containsSeq (pat : List Char) : List Char → Bool
  | [] => pat.isEmpty
  | c :: rest => pat.isPrefixOf (c :: rest) || containsSeq pat rest

/-- The pre-filter `node.nodeValue.includes(PLACEHOLDER)`. -/
def containsMarker (s : List Char) : Bool := containsSeq MARKER s

/-! URI codec: a model of the ECMAScript `decodeURI` / `encodeURI`
builtins used by `sanitizePath`, on lists of Unicode scalar values. -/

/-- Hexadecimal digit value of a character, case insensitive. -/
def hexVal (c : Char) : Option Nat :=
  if '0' ≤ c ∧ c ≤ '9' then some (c.toNat - 48)
  else if 'A' ≤ c ∧ c ≤ 'F' then some (c.toNat - 55)
  else if 'a' ≤ c ∧ c ≤ 'f' then some (c.toNat - 87)
  else none

/-- Uppercase hex digits used by percent-encoding. -/
def hexDigits : List Char := "0123456789ABCDEF".data

/-- The uppercase hex digit for a value below 16. -/
def hexDigit (k : Nat) : Char := hexDigits.getD k '0'

/-- Percent-escape of one byte. -/
def pctEncodeByte (b : Nat) : List Char := ['%', hexDigit (b / 16), hexDigit (b % 16)]

/-- Percent-escapes of a byte sequence. -/
def pctEncodeBytes : List Nat → List Char
  | [] => []
  | b :: bs => pctEncodeByte b ++ pctEncodeBytes bs

/-- The uriReserved character set of the ECMAScript URI handling
functions. -/
def uriReservedCh (c : Char) : Bool :=
  c = ';' || c = '/' || c = '?' || c = ':' || c = '@' || c = '&' || c = '=' ||
    c = '+' || c = '$' || c = ','

/-- Characters whose escape sequences `decodeURI` leaves intact:
uriReserved plus the hash sign. -/
def decodePreservedCh (c : Char) : Bool := uriReservedCh c || c = '#'

/-- The uriUnescaped character set: ASCII alphanumerics and the marks
hyphen, underscore, dot, bang, tilde, star, apostrophe and parentheses. -/
def uriUnescapedCh (c : Char) : Bool :=
  c.isAlpha || c.isDigit || c = '-' || c = '_' || c = '.' || c = '!' || c = '~' ||
    c = '*' || c.toNat = 39 || c = '(' || c = ')'

/-- Characters `encodeURI` emits literally: uriUnescaped, uriReserved
and the hash sign.  Everything else is UTF-8 percent-escaped. -/
def encodeKeepCh (c : Char) : Bool := uriUnescapedCh c || uriReservedCh c || c = '#'

/-- UTF-8 bytes of a Unicode scalar value. -/
def utf8Bytes (n : Nat) : List Nat :=
  if n < 128 then [n]
  else if n < 2048 then [192 + n / 64, 128 + n % 64]
  else if n < 65536 then [224 + n / 4096, 128 + n / 64 % 64, 128 + n % 64]
  else [240 + n / 262144, 128 + n / 4096 % 64, 128 + n / 64 % 64, 128 + n % 64]

/-- Model of `encodeURI`. -/
def encodeURI : List Char → List Char
  | [] => []
  | c :: rest =>
    (if encodeKeepCh c then [c] else pctEncodeBytes (utf8Bytes c.toNat)) ++ encodeURI rest

/-- A token of the decodeURI scanner: either a literal character or a
percent-escape carrying its two original hex digit characters and the
byte value they denote. -/
inductive UriTok where
  | ch (c : Char)
  | esc (h1 h2 : Char) (b : Nat)
deriving DecidableEq, Repr

/-- First phase of `decodeURI`: scan the string into literal characters
and percent-escaped bytes.  A percent sign not followed by two hex
digits is a URIError, modelled as `none`. -/
def uriTokenize : List Char → Option (List UriTok)
  | [] => some []
  | c :: rest =>
    if c = '%' then
      match rest with
      | h1 :: h2 :: rest2 =>
        match hexVal h1, hexVal h2 with
        | some a, some b =>
          match uriTokenize rest2 with
          | some ts => some (UriTok.esc h1 h2 (16 * a + b) :: ts)
          | none => none
        | _, _ => none
      | _ => none
    else
      match uriTokenize rest with
      | some ts => some (UriTok.ch c :: ts)
      | none => none

/-- Value of a UTF-8 continuation byte token, if it is one. -/
def contByte (t : UriTok) : Option Nat :=
  match t with
  | UriTok.esc _ _ b => if 128 ≤ b ∧ b ≤ 191 then some (b - 128) else none
  | _ => none

/-- Second phase of `decodeURI`: reassemble UTF-8 byte sequences into
scalar values.  Escapes of reserved characters are preserved verbatim
with their original hex digits; malformed sequences (bad leading byte,
missing or invalid continuation, overlong form, surrogate, value past
the last code point) are URIErrors, modelled as `none`.  The first
argument is recursion fuel; every step consumes at least one token, so
any fuel of at least the token count gives the untruncated result. -/
def uriAssembleF : Nat → List UriTok → Option (List Char)
  | _, [] => some []
  | 0, _ :: _ => none
  | fuel + 1, UriTok.ch c :: rest =>
    match uriAssembleF fuel rest with
    | some cs => some (c :: cs)
    | none => none
  | fuel + 1, UriTok.esc h1 h2 b :: rest =>
    if b < 128 then
      match uriAssembleF fuel rest with
      | some cs =>
        some (if decodePreservedCh (Char.ofNat b) then '%' :: h1 :: h2 :: cs
              else Char.ofNat b :: cs)
      | none => none
    else if 194 ≤ b ∧ b ≤ 223 then
      match rest with
      | t1 :: rest1 =>
        match contByte t1 with
        | some v1 =>
          match uriAssembleF fuel rest1 with
          | some cs => some (Char.ofNat ((b - 192) * 64 + v1) :: cs)
          | none => none
        | none => none
      | [] => none
    else if 224 ≤ b ∧ b ≤ 239 then
      match rest with
      | t1 :: t2 :: rest2 =>
        match contByte t1, contByte t2 with
        | some v1, some v2 =>
          let n := (b - 224) * 4096 + v1 * 64 + v2
          if 2048 ≤ n ∧ ¬ (55296 ≤ n ∧ n ≤ 57343) then
            match uriAssembleF fuel rest2 with
            | some cs => some (Char.ofNat n :: cs)
            | none => none
          else none
        | _, _ => none
      | _ => none
    else if 240 ≤ b ∧ b ≤ 244 then
      match rest with
      | t1 :: t2 :: t3 :: rest3 =>
        match contByte t1, contByte t2, contByte t3 with
        | some v1, some v2, some v3 =>
          let n := (b - 240) * 262144 + v1 * 4096 + v2 * 64 + v3
          if 65536 ≤ n ∧ n ≤ 1114111 then
            match uriAssembleF fuel rest3 with
            | some cs => some (Char.ofNat n :: cs)
            | none => none
          else none
        | _, _, _ => none
      | _ => none
    else none

/-- Model of `decodeURI`: `none` models a thrown URIError. -/
def decodeURI (s : List Char) : Option (List Char) :=
  match uriTokenize s with
  | some ts => uriAssembleF ts.length ts
  | none => none

/-- The path sanitizer: `encodeURI(decodeURI(raw))`, falling back to
the raw path when decoding throws. -/
def sanitizePath (raw : List Char) : List Char :=
  match decodeURI raw with
  | some d => encodeURI d
  | none => raw

/-- Escape tokens produced by tokenizing the percent-escapes of the
UTF-8 bytes of one scalar value (proof helper). -/
def escTokens (n : Nat) : List UriTok :=
  (utf8Bytes n).map (fun b => UriTok.esc (hexDigit (b / 16)) (hexDigit (b % 16)) b)

/-- Token sequence that `encodeURI` output tokenizes to (proof helper). -/
def encTokens : List Char → List UriTok
  | [] => []
  | c :: rest =>
    (if encodeKeepCh c then [UriTok.ch c] else escTokens c.toNat) ++ encTokens rest

/-! The replacement engine on one text string
(`buildFragmentFromMatches`). -/

/-- A fragment child: a plain text node or an injected link element
whose display text equals its URL. -/
inductive Frag where
  | txt (s : List Char)
  | link (url : List Char)
deriving DecidableEq, Repr

/-- The URL constructed for a match: base URL plus sanitized path. -/
def urlOfMatch (base : List Char) (m : PMatch) : List Char := base ++ sanitizePath m.path

/-- The loop body of buildFragmentFromMatches over the match list:
text before each match is appended verbatim, each match becomes a link
when its URL passes validation and otherwise stays as its original
text with a diagnostic recorded, and trailing text is appended at the
end.  Returns the fragment children and the diagnostics. -/
def fragsOfMatches (valid : List Char → Bool) (base text : List Char) :
    List PMatch → Nat → List Frag × List (List Char × List Char)
  | [], lastIndex =>
    (if lastIndex < text.length then [Frag.txt (text.drop lastIndex)] else [], [])
  | m :: ms, lastIndex =>
    let pre : List Frag :=
      if lastIndex < m.index then
        [Frag.txt ((text.drop lastIndex).take (m.index - lastIndex))]
      else []
    let url := urlOfMatch base m
    let tail := fragsOfMatches valid base text ms (m.index + m.raw.length)
    if valid url then (pre ++ Frag.link url :: tail.1, tail.2)
    else (pre ++ Frag.txt m.raw :: tail.1, (m.raw, url) :: tail.2)

/-- Model of buildFragmentFromMatches: `none` when the text has no
matches, otherwise the fragment children plus the warn diagnostics. -/
def buildFragmentFromMatches (valid : List Char → Bool) (base text : List Char) :
    Option (List Frag × List (List Char × List Char)) :=
  match findMatches text with
  | [] => none
  | m :: ms => some (fragsOfMatches valid base text (m :: ms) 0)

/-- Concatenation of the fragment children as they render in the DOM:
a link element displays its URL as its text content. -/
def flattenFrags : List Frag → List Char
  | [] => []
  | Frag.txt s :: rest => s ++ flattenFrags rest
  | Frag.link u :: rest => u ++ flattenFrags rest

/-- Number of link children in a fragment. -/
def countLinkFrags : List Frag → Nat
  | [] => 0
  | Frag.link _ :: rest => countLinkFrags rest + 1
  | Frag.txt _ :: rest => countLinkFrags rest

/-- Direct substitution of every scanner match in a text: each matched
span becomes its resolved URL when valid and stays as its original
text otherwise; all other characters are kept verbatim in order.  This
is the specification-side description of the replacement ("the original
text with each placeholder span replaced"). -/
def substAux (valid : List Char → Bool) (base : List Char) : Nat → List Char → List Char
  | 0, _ => []
  | _ + 1, [] => []
  | fuel + 1, c :: rest =>
    match tryMatchAt (c :: rest) with
    | some path =>
      let url := base ++ sanitizePath path
      (if valid url then url else MARKER ++ '/' :: path) ++
        substAux valid base fuel (rest.drop (18 + path.length))
    | none => c :: substAux valid base fuel rest

/-- Substitution of every placeholder span in a text. -/
def substPlaceholders (valid : List Char → Bool) (base text : List Char) : List Char :=
  substAux valid base text.length text

/-! The DOM layer: a mutually inductive tree of text nodes and
elements, the tree walker, the code-view container query, the
per-node replacement, and the run controller. -/

mutual
/-- A DOM node: a text node (tagged with an identity standing for JS
object identity; nodes created during a pass get identity 0) or an
element with a tag name, a class list and children. -/
inductive Dom where
  | text (tid : Nat) (s : List Char)
  | elem (tag : String) (classes : List String) (kids : DomForest)
deriving DecidableEq
/-- A sibling list of DOM nodes. -/
inductive DomForest where
  | nil
  | cons (d : Dom) (ds : DomForest)
deriving DecidableEq
end

/-- A collected candidate text node: its identity, the tag names of
its ancestor elements (nearest first) and its character data. -/
structure TNode where
  tid : Nat
  anc : List String
  content : List Char
deriving DecidableEq, Repr

mutual
/-- All text nodes of a subtree in document order, decorated with
their ancestor tags; `anc` is the ancestor context above the subtree. -/
def textNodesD (anc : List String) : Dom → List TNode
  | .text tid s => [⟨tid, anc, s⟩]
  | .elem tag _ kids => textNodesF (tag :: anc) kids
/-- All text nodes of a forest in document order. -/
def textNodesF (anc : List String) : DomForest → List TNode
  | .nil => []
  | .cons d ds => textNodesD anc d ++ textNodesF anc ds
end

/-- NON_RENDERED_TAGS whose text content is never processed. -/
def NON_RENDERED_TAGS : List String := ["SCRIPT", "STYLE", "TEMPLATE", "NOSCRIPT", "TEXTAREA"]

/-- The class names of CODE_VIEW_SELECTOR. -/
def CODE_VIEW_CLASSES : List String :=
  ["blob-wrapper", "highlight", "react-code-lines", "react-blob-print-hide"]

/-- The walker's acceptNode filter: reject text whose parent element
is a non-rendered tag, skip text with an anchor ancestor (the
`closest` call from the parent element), then apply the cheap
substring pre-filter. -/
def acceptText (anc : List String) (s : List Char) : Bool :=
  match anc.head? with
  | some parent =>
    if NON_RENDERED_TAGS.contains parent then false
    else if anc.contains "A" then false
    else containsMarker s
  | none => containsMarker s

/-- Whether an element's class list matches CODE_VIEW_SELECTOR. -/
def hasCodeClass (classes : List String) : Bool :=
  CODE_VIEW_CLASSES.any (fun c => classes.contains c)

mutual
/-- All code-view containers of a subtree in document order, each with
the ancestor context above it (querySelectorAll). -/
def findContainersD (anc : List String) : Dom → List (List String × Dom)
  | .text _ _ => []
  | .elem tag cls kids =>
    (if hasCodeClass cls then [(anc, Dom.elem tag cls kids)] else []) ++
      findContainersF (tag :: anc) kids
/-- All code-view containers of a forest in document order. -/
def findContainersF (anc : List String) : DomForest → List (List String × Dom)
  | .nil => []
  | .cons d ds => findContainersD anc d ++ findContainersF anc ds
end

/-- findCodeContainers: the code-view containers, or the whole
document (the body) as fallback when none exist. -/
def findCodeContainers (doc : Dom) : List (List String × Dom) :=
  match findContainersD [] doc with
  | [] => [([], doc)]
  | c :: cs => c :: cs

/-- Text nodes of each scope passing the acceptNode filter, scope by
scope in order. -/
def scopeTexts : List (List String × Dom) → List TNode
  | [] => []
  | (anc, d) :: rest =>
    (textNodesD anc d).filter (fun tn => acceptText tn.anc tn.content) ++ scopeTexts rest

/-- The `seen` set guard of collectMatchingNodes: keep the first
occurrence of each node identity. -/
def dedupNodes : List TNode → List Nat → List TNode
  | [], _ => []
  | tn :: rest, seen =>
    if seen.contains tn.tid then dedupNodes rest seen
    else tn :: dedupNodes rest (tn.tid :: seen)

/-- collectMatchingNodes over a list of scopes. -/
def collectMatchingNodes (scopes : List (List String × Dom)) : List TNode :=
  dedupNodes (scopeTexts scopes) []

/-- Conversion of fragment children to DOM siblings: text children
become fresh text nodes (identity 0), link children become anchor
elements displaying their URL. -/
def fragToDoms : List Frag → DomForest
  | [] => .nil
  | Frag.txt s :: rest => .cons (Dom.text 0 s) (fragToDoms rest)
  | Frag.link u :: rest =>
    .cons (Dom.elem "A" [] (.cons (Dom.text 0 u) .nil)) (fragToDoms rest)

/-- Concatenation of sibling lists. -/
def forestAppend : DomForest → DomForest → DomForest
  | .nil, g => g
  | .cons d ds, g => .cons d (forestAppend ds g)

mutual
/-- replaceChild of a fragment for the text node with the given
identity, inside a node. -/
def replaceInD (tid : Nat) (fr : DomForest) : Dom → Dom
  | .text tid2 s => .text tid2 s
  | .elem t c kids => .elem t c (replaceInF tid fr kids)
/-- replaceChild of a fragment for the text node with the given
identity, inside a forest. -/
def replaceInF (tid : Nat) (fr : DomForest) : DomForest → DomForest
  | .nil => .nil
  | .cons (.text tid2 s) ds =>
    if tid2 = tid then forestAppend fr (replaceInF tid fr ds)
    else .cons (.text tid2 s) (replaceInF tid fr ds)
  | .cons (.elem t c kids) ds =>
    .cons (.elem t c (replaceInF tid fr kids)) (replaceInF tid fr ds)
end

mutual
/-- Current character data of the text node with the given identity,
or `none` when it is no longer attached to the tree. -/
def findTextD (tid : Nat) : Dom → Option (List Char)
  | .text tid2 s => if tid2 = tid then some s else none
  | .elem _ _ kids => findTextF tid kids
/-- Current character data of a text node inside a forest. -/
def findTextF (tid : Nat) : DomForest → Option (List Char)
  | .nil => none
  | .cons d ds =>
    match findTextD tid d with
    | some s => some s
    | none => findTextF tid ds
end

/-- replaceTextNodeWithDocsLinks: skip a detached node, build the
fragment from its current text, and swap the node for the fragment.
Returns the updated document and whether a replacement was made. -/
def replaceTextNodeWithDocsLinks (valid : List Char → Bool) (dom : Dom) (tid : Nat) :
    Dom × Bool :=
  match findTextD tid dom with
  | none => (dom, false)
  | some s =>
    match buildFragmentFromMatches valid DOCS_BASE_URL s with
    | none => (dom, false)
    | some (frags, _) => (replaceInD tid (fragToDoms frags) dom, true)

/-- The replacement loop of the run controller: process each collected
node in order, counting the nodes for which a replacement was made. -/
def runReplacements (valid : List Char → Bool) : Dom → List Nat → Dom × Nat
  | dom, [] => (dom, 0)
  | dom, tid :: rest =>
    let r := replaceTextNodeWithDocsLinks valid dom tid
    let t := runReplacements valid r.1 rest
    (t.1, (if r.2 then 1 else 0) + t.2)

/-- The Boolean each per-node replacement returned, in processing
order. -/
def replacedFlags (valid : List Char → Bool) : Dom → List Nat → List Bool
  | _, [] => []
  | dom, tid :: rest =>
    let r := replaceTextNodeWithDocsLinks valid dom tid
    r.2 :: replacedFlags valid r.1 rest

/-- Identities of the collected candidate nodes of a document. -/
def passNodes (dom : Dom) : List Nat :=
  (collectMatchingNodes (findCodeContainers dom)).map (fun tn => tn.tid)

/-- One full replacement pass over a document: the mutated document
and the number of nodes replaced. -/
def passResult (valid : List Char → Bool) (dom : Dom) : Dom × Nat :=
  runReplacements valid dom (passNodes dom)

/-- The browser-level state touched by the bookmarklet: the page
address, the run guard `window.__externalDocsUrlBookmarkletRan`, the
document, the number of installed document-level click and mousemove
listeners, and the reported summary count. -/
structure BrowserState where
  href : String
  ran : Option String
  dom : Dom
  clickListeners : Nat
  moveListeners : Nat
  report : Option Nat
deriving DecidableEq

/-- resolveExternalDocsUrls: the one-run-per-page guard, the scan, the
replacement loop, the conditional installDelegatedHandlers call, and
the summary report. -/
def resolveExternalDocsUrls (valid : List Char → Bool) (st : BrowserState) : BrowserState :=
  if st.ran = some st.href then st
  else
    let pr := passResult valid st.dom
    { st with
      ran := some st.href
      dom := pr.1
      clickListeners := st.clickListeners + (if 0 < pr.2 then 1 else 0)
      moveListeners := st.moveListeners + (if 0 < pr.2 then 1 else 0)
      report := some pr.2 }

/-! Observation helpers used by the theorems. -/

mutual
/-- Number of anchor elements in a node. -/
def countATagsD : Dom → Nat
  | .text _ _ => 0
  | .elem t _ kids => (if t = "A" then 1 else 0) + countATagsF kids
/-- Number of anchor elements in a forest. -/
def countATagsF : DomForest → Nat
  | .nil => 0
  | .cons d ds => countATagsD d + countATagsF ds
end

/-- Whether a node is a text node. -/
def isTextNode : Dom → Bool
  | .text _ _ => true
  | .elem _ _ _ => false

/-- Whether every node of a forest is a text node. -/
def forestAllText : DomForest → Bool
  | .nil => true
  | .cons d ds => isTextNode d && forestAllText ds

mutual
/-- Well-formedness of a parsed HTML tree: non-rendered raw-text
elements (script, style, textarea and the like) hold only text
children, as the HTML parser guarantees. -/
def rawTextOnlyD : Dom → Bool
  | .text _ _ => true
  | .elem tag _ kids =>
    (if NON_RENDERED_TAGS.contains tag then forestAllText kids else true) && rawTextOnlyF kids
/-- Well-formedness of a forest. -/
def rawTextOnlyF : DomForest → Bool
  | .nil => true
  | .cons d ds => rawTextOnlyD d && rawTextOnlyF ds
end

/-! Concrete scenario inputs used by the boundary and counterexample
theorems. -/

/-- The boundary-scenario input text: a placeholder directly followed
by a closing parenthesis. -/
def c2Input : List Char :=
  "${externalDocsUrl}/rest/actions/workflow-runs#force-cancel-a-workflow-run)".data

/-- The path the boundary scenario must capture. -/
def c2Path : List Char := "rest/actions/workflow-runs#force-cancel-a-workflow-run".data

/-- The target URL of the boundary scenario. -/
def c2Url : List Char :=
  ("https://docs.github.com/en/enterprise-cloud@latest/" ++
    "rest/actions/workflow-runs#force-cancel-a-workflow-run").data

/-- A document whose single candidate text node holds two placeholder
occurrences. -/
def twoMatchDom : Dom :=
  Dom.elem "BODY" [] (.cons (Dom.elem "DIV" ["blob-wrapper"]
    (.cons (Dom.text 1 ("use ${externalDocsUrl}/a and ${externalDocsUrl}/b here".data))
      .nil)) .nil)

/-- A fresh browser state over `twoMatchDom`. -/
def twoMatchSt : BrowserState :=
  { href := "page", ran := none, dom := twoMatchDom, clickListeners := 0,
    moveListeners := 0, report := none }

/-- A document with a placeholder inside a script element, inside an
anchor, and inside a plain division. -/
def mixedDom : Dom :=
  Dom.elem "BODY" []
    (.cons (Dom.elem "SCRIPT" [] (.cons (Dom.text 1 ("${externalDocsUrl}/x".data)) .nil))
      (.cons (Dom.elem "A" [] (.cons (Dom.text 2 ("${externalDocsUrl}/x".data)) .nil))
        (.cons (Dom.elem "DIV" [] (.cons (Dom.text 3 ("${externalDocsUrl}/x".data)) .nil))
          .nil)))

/-- A document with no placeholder anywhere. -/
def quietDom : Dom :=
  Dom.elem "BODY" [] (.cons (Dom.text 1 ("hello world".data)) .nil)

/-- A fresh browser state over `quietDom`. -/
def quietSt : BrowserState :=
  { href := "page", ran := none, dom := quietDom, clickListeners := 0,
    moveListeners := 0, report := none }

/-- A browser state whose run guard already records the current page
address. -/
def guardedSt : BrowserState :=
  { href := "page", ran := some "page", dom := twoMatchDom, clickListeners := 0,
    moveListeners := 0, report := none }

/-! Lemmas about the scanner. -/

theorem marker_len : MARKER.length = 18 := rfl

theorem isPrefixOf_iff_exists (p : List Char) :
    ∀ (l : List Char), p.isPrefixOf l = true ↔ ∃ t, l = p ++ t := by
  induction p with
  | nil => intro l; simp [List.isPrefixOf]
  | cons a as ih =>
    intro l
    cases l with
    | nil => simp [List.isPrefixOf]
    | cons b bs =>
      simp only [List.isPrefixOf, Bool.and_eq_true, beq_iff_eq, List.cons_append,
        List.cons.injEq]
      constructor
      · rintro ⟨rfl, h⟩
        obtain ⟨t, rfl⟩ := (ih bs).1 h
        exact ⟨t, rfl, rfl⟩
      · rintro ⟨t, rfl, rfl⟩
        exact ⟨rfl, (ih _).2 ⟨t, rfl⟩⟩

theorem dropWhile_head_false {p : Char → Bool} :
    ∀ (l : List Char) {c t}, l.dropWhile p = c :: t → p c = false := by
  intro l
  induction l with
  | nil => intro c t h; simp [List.dropWhile] at h
  | cons a as ih =>
    intro c t h
    rw [List.dropWhile] at h
    cases hp : p a with
    | true => rw [hp] at h; exact ih h
    | false => rw [hp] at h; cases h; exact hp

theorem tryMatchAt_some {s path : List Char} (h : tryMatchAt s = some path) :
    path ≠ [] ∧ path = (s.drop 19).takeWhile allowedPathChar ∧
      s = MARKER ++ '/' :: (path ++ (s.drop 19).dropWhile allowedPathChar) := by
  rw [tryMatchAt] at h
  split at h
  case isFalse => exact absurd h (by simp)
  case isTrue hp =>
    simp only at h
    split at h
    case isTrue => exact absurd h (by simp)
    case isFalse hne =>
      obtain ⟨t, rfl⟩ := (isPrefixOf_iff_exists _ _).1 hp
      have hdrop : ((MARKER ++ ['/']) ++ t).drop 19 = t := List.drop_left' (by decide)
      rw [hdrop] at h hne ⊢
      cases h
      refine ⟨by simpa using hne, rfl, ?_⟩
      rw [List.takeWhile_append_dropWhile]
      simp

theorem tryMatchAt_len {s path : List Char} (h : tryMatchAt s = some path) :
    19 + path.length ≤ s.length := by
  obtain ⟨_, _, hs⟩ := tryMatchAt_some h
  rw [hs]
  simp [marker_len]
  omega

theorem tryMatchAt_drop {s path : List Char} (h : tryMatchAt s = some path) :
    s.drop (19 + path.length) = (s.drop 19).dropWhile allowedPathChar := by
  obtain ⟨_, hpath, hs⟩ := tryMatchAt_some h
  conv_lhs => rw [hs]
  have : (MARKER ++ '/' :: path).length = 19 + path.length := by simp [marker_len]; omega
  have hassoc : MARKER ++ '/' :: (path ++ (s.drop 19).dropWhile allowedPathChar) =
      (MARKER ++ '/' :: path) ++ (s.drop 19).dropWhile allowedPathChar := by simp
  rw [hassoc, List.drop_left' this]

theorem scanAux_index_ge :
    ∀ (fuel : Nat) (s : List Char) (i : Nat) (m : PMatch),
      m ∈ scanAux fuel s i → i ≤ m.index := by
  intro fuel
  induction fuel with
  | zero => intro s i m h; simp [scanAux] at h
  | succ fuel ih =>
    intro s i m h
    cases s with
    | nil => simp [scanAux] at h
    | cons c rest =>
      rw [scanAux] at h
      cases htm : tryMatchAt (c :: rest) with
      | some path =>
        rw [htm] at h
        simp only [List.mem_cons] at h
        rcases h with rfl | h
        · exact Nat.le_refl _
        · have := ih _ _ _ h; omega
      | none =>
        rw [htm] at h
        have := ih _ _ _ h; omega

theorem flattenFrags_append (a b : List Frag) :
    flattenFrags (a ++ b) = flattenFrags a ++ flattenFrags b := by
  induction a with
  | nil => rfl
  | cons f fs ih => cases f <;> simp [flattenFrags, ih]

theorem countLinkFrags_append (a b : List Frag) :
    countLinkFrags (a ++ b) = countLinkFrags a + countLinkFrags b := by
  induction a with
  | nil => simp [countLinkFrags]
  | cons f fs ih =>
    cases f with
    | txt s => simp [countLinkFrags, ih]
    | link u =>
      simp [countLinkFrags, ih]
      omega

theorem drop_succ_of_drop {text : List Char} {i : Nat} {c : Char} {rest : List Char}
    (hdrop : text.drop i = c :: rest) : text.drop (i + 1) = rest := by
  have h1 := List.drop_drop 1 i text
  rw [hdrop] at h1
  simpa using h1.symm

theorem frags_shift (valid : List Char → Bool) (base text : List Char) {c : Char}
    {rest : List Char} {i : Nat} (hdrop : text.drop i = c :: rest)
    (ms : List PMatch) (hms : ∀ m ∈ ms, i + 1 ≤ m.index) :
    flattenFrags (fragsOfMatches valid base text ms i).1 =
      c :: flattenFrags (fragsOfMatches valid base text ms (i + 1)).1 := by
  have hlen : i < text.length := by
    by_contra hle
    rw [List.drop_eq_nil_of_le (by omega)] at hdrop
    exact List.noConfusion hdrop
  have hdrop1 : text.drop (i + 1) = rest := drop_succ_of_drop hdrop
  cases ms with
  | nil =>
    simp only [fragsOfMatches]
    rw [if_pos hlen]
    by_cases h1 : i + 1 < text.length
    · rw [if_pos h1]
      simp [flattenFrags, hdrop, hdrop1]
    · rw [if_neg h1]
      have hr : rest = [] := by
        rw [← hdrop1]
        exact List.drop_eq_nil_of_le (by omega)
      simp [flattenFrags, hdrop, hr]
  | cons m ms' =>
    have him : i + 1 ≤ m.index := hms m (List.mem_cons_self _ _)
    simp only [fragsOfMatches]
    rw [if_pos (by omega : i < m.index)]
    by_cases h2 : i + 1 < m.index
    · rw [if_pos h2]
      have htake : (text.drop i).take (m.index - i) =
          c :: (text.drop (i + 1)).take (m.index - (i + 1)) := by
        rw [hdrop, hdrop1]
        have he : m.index - i = (m.index - (i + 1)) + 1 := by omega
        rw [he, List.take_succ_cons]
      cases hv : valid (urlOfMatch base m) <;>
        simp [flattenFrags_append, flattenFrags, htake]
    · rw [if_neg h2]
      have he : m.index = i + 1 := by omega
      have htake : (text.drop i).take (m.index - i) = [c] := by
        rw [hdrop, he]
        simp
      cases hv : valid (urlOfMatch base m) <;>
        simp [flattenFrags_append, flattenFrags, htake]

theorem flatten_scan (valid : List Char → Bool) (base text : List Char) :
    ∀ (fuel : Nat) (s : List Char) (i : Nat), s.length ≤ fuel → text.drop i = s →
      flattenFrags (fragsOfMatches valid base text (scanAux fuel s i) i).1 =
        substAux valid base fuel s := by
  intro fuel
  induction fuel with
  | zero =>
    intro s i hf hd
    have hs : s = [] := List.length_eq_zero.1 (by omega)
    subst hs
    have hge : text.length ≤ i := List.drop_eq_nil_iff.1 hd
    simp [scanAux, substAux, fragsOfMatches, if_neg (by omega : ¬ i < text.length),
      flattenFrags]
  | succ fuel ih =>
    intro s i hf hd
    cases s with
    | nil =>
      have hge : text.length ≤ i := List.drop_eq_nil_iff.1 hd
      simp [scanAux, substAux, fragsOfMatches, if_neg (by omega : ¬ i < text.length),
        flattenFrags]
    | cons c rest =>
      rw [scanAux, substAux]
      cases htm : tryMatchAt (c :: rest) with
      | some path =>
        obtain ⟨hne, hpath, hdec⟩ := tryMatchAt_some htm
        have hlen19 : 19 + path.length ≤ (c :: rest).length := tryMatchAt_len htm
        have hrawlen : (MARKER ++ '/' :: path).length = 19 + path.length := by
          simp [marker_len]
          omega
        have hdroprest : (c :: rest).drop (19 + path.length) = rest.drop (18 + path.length) := by
          have : 19 + path.length = (18 + path.length) + 1 := by omega
          rw [this, List.drop_succ_cons]
        have hfuel2 : (rest.drop (18 + path.length)).length ≤ fuel := by
          rw [List.length_drop]
          simp at hf
          omega
        have hdrop2 : text.drop (i + (19 + path.length)) = rest.drop (18 + path.length) := by
          rw [← hdroprest, ← hd, List.drop_drop]
        have htail := ih (rest.drop (18 + path.length)) (i + (19 + path.length)) hfuel2 hdrop2
        simp only [fragsOfMatches]
        rw [if_neg (by omega : ¬ i < i)]
        have hidx : i + (MARKER ++ '/' :: path).length = i + (19 + path.length) := by
          rw [hrawlen]
        simp only [List.nil_append, hidx]
        cases hv : valid (urlOfMatch base ⟨i, MARKER ++ '/' :: path, path⟩) <;>
          simp only [urlOfMatch] at hv <;>
          simp [flattenFrags, hv, htail, urlOfMatch, Nat.add_assoc]
      | none =>
        have hshift := frags_shift valid base text hd (scanAux fuel rest (i + 1))
          (fun m hm => scanAux_index_ge fuel rest (i + 1) m hm)
        rw [hshift]
        have hfuel2 : rest.length ≤ fuel := by simp at hf; omega
        rw [ih rest (i + 1) hfuel2 (drop_succ_of_drop hd)]

theorem drop_takeWhile_length (p : Char → Bool) (l : List Char) :
    l.drop (l.takeWhile p).length = l.dropWhile p := by
  have h := @List.drop_left' Char (l.takeWhile p) (l.dropWhile p) (l.takeWhile p).length rfl
  rw [List.takeWhile_append_dropWhile] at h
  exact h

theorem subst_false_id (base : List Char) :
    ∀ (fuel : Nat) (s : List Char), s.length ≤ fuel →
      substAux (fun _ => false) base fuel s = s := by
  intro fuel
  induction fuel with
  | zero =>
    intro s hf
    have hs : s = [] := List.length_eq_zero.1 (by omega)
    subst hs
    rfl
  | succ fuel ih =>
    intro s hf
    cases s with
    | nil => rfl
    | cons c rest =>
      rw [substAux]
      cases htm : tryMatchAt (c :: rest) with
      | some path =>
        obtain ⟨hne, hpath, hdec⟩ := tryMatchAt_some htm
        have hdroprest : (c :: rest).drop (19 + path.length) = rest.drop (18 + path.length) := by
          have h19 : 19 + path.length = (18 + path.length) + 1 := by omega
          rw [h19, List.drop_succ_cons]
        have hdw : rest.drop (18 + path.length) =
            ((c :: rest).drop 19).dropWhile allowedPathChar := by
          rw [← hdroprest]
          exact tryMatchAt_drop htm
        have hfuel2 : (rest.drop (18 + path.length)).length ≤ fuel := by
          rw [List.length_drop]
          simp at hf
          omega
        simp only [Bool.false_eq_true, if_false]
        rw [ih _ hfuel2, hdw]
        conv_rhs => rw [hdec]
        simp
      | none =>
        have hfuel2 : rest.length ≤ fuel := by simp at hf; omega
        rw [ih rest hfuel2]

theorem count_fragsOfMatches (valid : List Char → Bool) (base text : List Char) :
    ∀ (ms : List PMatch) (li : Nat),
      countLinkFrags (fragsOfMatches valid base text ms li).1 =
        (ms.filter (fun m => valid (urlOfMatch base m))).length := by
  intro ms
  induction ms with
  | nil =>
    intro li
    simp only [fragsOfMatches, List.filter_nil, List.length_nil]
    split <;> simp [countLinkFrags]
  | cons m ms' ih =>
    intro li
    simp only [fragsOfMatches, List.filter_cons]
    cases hv : valid (urlOfMatch base m) <;>
      by_cases hlt : li < m.index <;>
      simp [hlt, hv, countLinkFrags_append, countLinkFrags, ih]

theorem warns_fragsOfMatches (valid : List Char → Bool) (base text : List Char) :
    ∀ (ms : List PMatch) (li : Nat),
      (fragsOfMatches valid base text ms li).2 =
        ms.filterMap (fun m =>
          if valid (urlOfMatch base m) then none else some (m.raw, urlOfMatch base m)) := by
  intro ms
  induction ms with
  | nil => intro li; simp [fragsOfMatches]
  | cons m ms' ih =>
    intro li
    simp only [fragsOfMatches, List.filterMap_cons]
    cases hv : valid (urlOfMatch base m) <;> simp [hv, ih]

theorem frags_cons_mem (valid : List Char → Bool) (base text : List Char)
    (m : PMatch) (ms : List PMatch) (li : Nat) (fr : Frag)
    (h : fr ∈ (fragsOfMatches valid base text (m :: ms) li).1) :
    fr = Frag.txt ((text.drop li).take (m.index - li)) ∨ fr = Frag.txt m.raw ∨
      (fr = Frag.link (urlOfMatch base m) ∧ valid (urlOfMatch base m) = true) ∨
      fr ∈ (fragsOfMatches valid base text ms (m.index + m.raw.length)).1 := by
  simp only [fragsOfMatches] at h
  by_cases hlt : li < m.index <;> cases hv : valid (urlOfMatch base m) <;>
    simp [hlt, hv] at h <;> tauto

theorem link_valid_fragsOfMatches (valid : List Char → Bool) (base text : List Char) :
    ∀ (ms : List PMatch) (li : Nat) (u : List Char),
      Frag.link u ∈ (fragsOfMatches valid base text ms li).1 → valid u = true := by
  intro ms
  induction ms with
  | nil =>
    intro li u h
    simp only [fragsOfMatches] at h
    split at h <;> simp at h
  | cons m ms' ih =>
    intro li u h
    rcases frags_cons_mem valid base text m ms' li _ h with h1 | h1 | h1 | h1
    · exact absurd h1 (by simp)
    · exact absurd h1 (by simp)
    · obtain ⟨heq, hva⟩ := h1
      cases heq
      exact hva
    · exact ih _ _ h1

theorem scan_marker : ∀ (fuel : Nat) (s : List Char) (i : Nat),
    scanAux fuel s i ≠ [] → containsMarker s = true := by
  intro fuel
  induction fuel with
  | zero => intro s i h; simp [scanAux] at h
  | succ fuel ih =>
    intro s i h
    cases s with
    | nil => simp [scanAux] at h
    | cons c rest =>
      rw [scanAux] at h
      rw [containsMarker, containsSeq]
      cases htm : tryMatchAt (c :: rest) with
      | some path =>
        obtain ⟨_, _, hdec⟩ := tryMatchAt_some htm
        have hpre : MARKER.isPrefixOf (c :: rest) = true := by
          rw [isPrefixOf_iff_exists]
          exact ⟨_, hdec⟩
        rw [hpre, Bool.true_or]
      | none =>
        rw [htm] at h
        have := ih rest (i + 1) h
        rw [containsMarker] at this
        rw [this, Bool.or_true]

theorem tryMatchAt_greedy {s path : List Char} (h : tryMatchAt s = some path) :
    path ≠ [] ∧ (∀ c ∈ path, allowedPathChar c = true) ∧
      ∀ c rest2, (s.drop 19).drop path.length = c :: rest2 → allowedPathChar c = false := by
  obtain ⟨hne, hpath, _⟩ := tryMatchAt_some h
  refine ⟨hne, ?_, ?_⟩
  · intro c hc
    rw [hpath] at hc
    exact List.mem_takeWhile_imp hc
  · intro c rest2 hd
    have hdw : (s.drop 19).drop path.length = (s.drop 19).dropWhile allowedPathChar := by
      conv_lhs => rw [hpath]
      exact drop_takeWhile_length _ _
    rw [hdw] at hd
    exact dropWhile_head_false _ hd

/-! Lemmas about the URI codec. -/

theorem hexVal_hexDigit {k : Nat} (hk : k < 16) : hexVal (hexDigit k) = some k := by
  interval_cases k <;> decide

theorem keep_ne_pct {c : Char} (h : encodeKeepCh c = true) : ¬ c = '%' := by
  intro hc
  subst hc
  exact absurd h (by decide)

theorem pres_imp_keep {c : Char} (h : decodePreservedCh c = true) : encodeKeepCh c = true := by
  simp only [decodePreservedCh, Bool.or_eq_true, decide_eq_true_eq] at h
  simp only [encodeKeepCh, Bool.or_eq_true, decide_eq_true_eq]
  tauto

theorem char_valid_nat (c : Char) :
    c.toNat < 55296 ∨ (57343 < c.toNat ∧ c.toNat < 1114112) := c.valid

theorem utf8Bytes_lt {n : Nat} (hn : n < 1114112) : ∀ b ∈ utf8Bytes n, b < 256 := by
  intro b hb
  rw [utf8Bytes] at hb
  by_cases h1 : n < 128
  · rw [if_pos h1] at hb
    simp at hb
    omega
  · rw [if_neg h1] at hb
    by_cases h2 : n < 2048
    · rw [if_pos h2] at hb
      simp at hb
      rcases hb with rfl | rfl <;> omega
    · rw [if_neg h2] at hb
      by_cases h3 : n < 65536
      · rw [if_pos h3] at hb
        simp at hb
        rcases hb with rfl | rfl | rfl <;> omega
      · rw [if_neg h3] at hb
        simp at hb
        rcases hb with rfl | rfl | rfl | rfl <;> omega

theorem tok_lit {c : Char} (hc : ¬ c = '%') (l : List Char) :
    uriTokenize (c :: l) =
      match uriTokenize l with
      | some ts => some (UriTok.ch c :: ts)
      | none => none := by
  rw [uriTokenize.eq_def]
  simp only [if_neg hc]

theorem tok_esc {h1 h2 : Char} {a b : Nat} (ha : hexVal h1 = some a) (hb : hexVal h2 = some b)
    (l : List Char) :
    uriTokenize ('%' :: h1 :: h2 :: l) =
      match uriTokenize l with
      | some ts => some (UriTok.esc h1 h2 (16 * a + b) :: ts)
      | none => none := by
  rw [uriTokenize.eq_def]
  simp only [if_pos, ha, hb]

theorem tok_pctBytes :
    ∀ (bs : List Nat), (∀ b ∈ bs, b < 256) → ∀ (l : List Char),
      uriTokenize (pctEncodeBytes bs ++ l) =
        match uriTokenize l with
        | some ts =>
          some (bs.map (fun b => UriTok.esc (hexDigit (b / 16)) (hexDigit (b % 16)) b) ++ ts)
        | none => none := by
  intro bs
  induction bs with
  | nil =>
    intro _ l
    simp only [pctEncodeBytes, List.nil_append, List.map_nil]
    cases uriTokenize l <;> rfl
  | cons b bs' ih =>
    intro hb l
    have hb256 : b < 256 := hb b (List.mem_cons_self _ _)
    have h16 : b / 16 < 16 := by omega
    have h16b : b % 16 < 16 := by omega
    have hshape : pctEncodeBytes (b :: bs') ++ l =
        '%' :: hexDigit (b / 16) :: hexDigit (b % 16) :: (pctEncodeBytes bs' ++ l) := by
      rw [pctEncodeBytes, pctEncodeByte]
      simp
    rw [hshape, tok_esc (hexVal_hexDigit h16) (hexVal_hexDigit h16b),
      ih (fun x hx => hb x (List.mem_cons_of_mem _ hx)) l]
    have harith : 16 * (b / 16) + b % 16 = b := by omega
    rw [harith]
    cases uriTokenize l <;> rfl

theorem tok_encodeURI : ∀ (d : List Char), uriTokenize (encodeURI d) = some (encTokens d) := by
  intro d
  induction d with
  | nil => rfl
  | cons c rest ih =>
    rw [encodeURI, encTokens]
    cases hk : encodeKeepCh c with
    | true =>
      simp only [if_pos, List.singleton_append]
      rw [tok_lit (keep_ne_pct hk), ih]
    | false =>
      simp only [Bool.false_eq_true, if_false]
      have hn : c.toNat < 1114112 := by
        rcases char_valid_nat c with h | h
        · omega
        · omega
      rw [tok_pctBytes _ (utf8Bytes_lt hn) _, ih, escTokens]

theorem utf8Bytes_ne_nil (n : Nat) : utf8Bytes n ≠ [] := by
  rw [utf8Bytes]
  split_ifs <;> simp

theorem assembleF_nil (fuel : Nat) : uriAssembleF fuel [] = some [] := by
  cases fuel <;> rfl

theorem assembleF_ch (fk : Nat) (c : Char) (ts : List UriTok) :
    uriAssembleF (fk + 1) (UriTok.ch c :: ts) =
      match uriAssembleF fk ts with
      | some cs => some (c :: cs)
      | none => none := rfl

theorem assembleF_esc (fk : Nat) (h1 h2 : Char) (b : Nat) (ts : List UriTok) :
    uriAssembleF (fk + 1) (UriTok.esc h1 h2 b :: ts) =
      (if b < 128 then
        match uriAssembleF fk ts with
        | some cs =>
          some (if decodePreservedCh (Char.ofNat b) then '%' :: h1 :: h2 :: cs
                else Char.ofNat b :: cs)
        | none => none
      else if 194 ≤ b ∧ b ≤ 223 then
        match ts with
        | t1 :: rest1 =>
          match contByte t1 with
          | some v1 =>
            match uriAssembleF fk rest1 with
            | some cs => some (Char.ofNat ((b - 192) * 64 + v1) :: cs)
            | none => none
          | none => none
        | [] => none
      else if 224 ≤ b ∧ b ≤ 239 then
        match ts with
        | t1 :: t2 :: rest2 =>
          match contByte t1, contByte t2 with
          | some v1, some v2 =>
            let n := (b - 224) * 4096 + v1 * 64 + v2
            if 2048 ≤ n ∧ ¬ (55296 ≤ n ∧ n ≤ 57343) then
              match uriAssembleF fk rest2 with
              | some cs => some (Char.ofNat n :: cs)
              | none => none
            else none
          | _, _ => none
        | _ => none
      else if 240 ≤ b ∧ b ≤ 244 then
        match ts with
        | t1 :: t2 :: t3 :: rest3 =>
          match contByte t1, contByte t2, contByte t3 with
          | some v1, some v2, some v3 =>
            let n := (b - 240) * 262144 + v1 * 4096 + v2 * 64 + v3
            if 65536 ≤ n ∧ n ≤ 1114111 then
              match uriAssembleF fk rest3 with
              | some cs => some (Char.ofNat n :: cs)
              | none => none
            else none
          | _, _, _ => none
        | _ => none
      else none) := rfl

theorem assembleF_encTokens :
    ∀ (d : List Char) (fuel : Nat), (encTokens d).length ≤ fuel →
      uriAssembleF fuel (encTokens d) = some d := by
  intro d
  induction d with
  | nil =>
    intro fuel _
    cases fuel <;> rfl
  | cons c rest ih =>
    intro fuel hf
    have hval := char_valid_nat c
    rw [encTokens] at hf ⊢
    cases hk : encodeKeepCh c with
    | true =>
      rw [hk] at hf
      simp only [if_pos, List.singleton_append] at hf ⊢
      cases fuel with
      | zero => simp at hf
      | succ fk =>
        rw [assembleF_ch, ih fk (by simp at hf; omega)]
    | false =>
      rw [hk] at hf
      simp only [Bool.false_eq_true, if_false] at hf ⊢
      have hpres : decodePreservedCh c = false := by
        cases hp : decodePreservedCh c with
        | false => rfl
        | true =>
          have hj := pres_imp_keep hp
          rw [hk] at hj
          cases hj
      rw [escTokens, utf8Bytes] at hf ⊢
      by_cases h1 : c.toNat < 128
      · rw [if_pos h1] at hf ⊢
        simp only [List.map_cons, List.map_nil, List.cons_append, List.nil_append,
          List.length_cons] at hf ⊢
        cases fuel with
        | zero => omega
        | succ fk =>
          rw [assembleF_esc, if_pos h1, ih fk (by omega)]
          rw [Char.ofNat_toNat, hpres]
          simp
      · rw [if_neg h1] at hf ⊢
        by_cases h2 : c.toNat < 2048
        · rw [if_pos h2] at hf ⊢
          simp only [List.map_cons, List.map_nil, List.cons_append, List.nil_append,
            List.length_cons] at hf ⊢
          cases fuel with
          | zero => omega
          | succ fk =>
            have hc1 : ¬ (192 + c.toNat / 64 < 128) := by omega
            have hc2 : 194 ≤ 192 + c.toNat / 64 ∧ 192 + c.toNat / 64 ≤ 223 := by omega
            have hcb : contByte (UriTok.esc (hexDigit ((128 + c.toNat % 64) / 16))
                (hexDigit ((128 + c.toNat % 64) % 16)) (128 + c.toNat % 64)) =
                some (c.toNat % 64) := by
              rw [contByte]
              rw [if_pos (by omega)]
              congr 1
              omega
            have harith : c.toNat / 64 * 64 + c.toNat % 64 = c.toNat := by omega
            have harith2 : (192 + c.toNat / 64 - 192) * 64 + c.toNat % 64 = c.toNat := by
              omega
            simp [assembleF_esc, hc1, hc2, hcb, ih fk (by omega), harith, harith2]
        · rw [if_neg h2] at hf ⊢
          by_cases h3 : c.toNat < 65536
          · rw [if_pos h3] at hf ⊢
            simp only [List.map_cons, List.map_nil, List.cons_append, List.nil_append,
              List.length_cons] at hf ⊢
            cases fuel with
            | zero => omega
            | succ fk =>
              have hc1 : ¬ (224 + c.toNat / 4096 < 128) := by omega
              have hc2 : ¬ (194 ≤ 224 + c.toNat / 4096 ∧ 224 + c.toNat / 4096 ≤ 223) := by
                omega
              have hc3 : 224 ≤ 224 + c.toNat / 4096 ∧ 224 + c.toNat / 4096 ≤ 239 := by omega
              have hcb1 : contByte (UriTok.esc (hexDigit ((128 + c.toNat / 64 % 64) / 16))
                  (hexDigit ((128 + c.toNat / 64 % 64) % 16)) (128 + c.toNat / 64 % 64)) =
                  some (c.toNat / 64 % 64) := by
                rw [contByte]
                rw [if_pos (by omega)]
                congr 1
                omega
              have hcb2 : contByte (UriTok.esc (hexDigit ((128 + c.toNat % 64) / 16))
                  (hexDigit ((128 + c.toNat % 64) % 16)) (128 + c.toNat % 64)) =
                  some (c.toNat % 64) := by
                rw [contByte]
                rw [if_pos (by omega)]
                congr 1
                omega
              have harith : c.toNat / 4096 * 4096 + c.toNat / 64 % 64 * 64 +
                  c.toNat % 64 = c.toNat := by omega
              have harith2 : (224 + c.toNat / 4096 - 224) * 4096 + c.toNat / 64 % 64 * 64 +
                  c.toNat % 64 = c.toNat := by omega
              have hcond : 2048 ≤ c.toNat ∧ ¬ (55296 ≤ c.toNat ∧ c.toNat ≤ 57343) := by omega
              simp [assembleF_esc, hc1, hc2, hc3, hcb1, hcb2, ih fk (by omega), harith,
                harith2, hcond]
          · rw [if_neg h3] at hf ⊢
            simp only [List.map_cons, List.map_nil, List.cons_append, List.nil_append,
              List.length_cons] at hf ⊢
            cases fuel with
            | zero => omega
            | succ fk =>
              have hc1 : ¬ (240 + c.toNat / 262144 < 128) := by omega
              have hc2 : ¬ (194 ≤ 240 + c.toNat / 262144 ∧ 240 + c.toNat / 262144 ≤ 223) := by
                omega
              have hc3 : ¬ (224 ≤ 240 + c.toNat / 262144 ∧ 240 + c.toNat / 262144 ≤ 239) := by
                omega
              have hc4 : 240 ≤ 240 + c.toNat / 262144 ∧ 240 + c.toNat / 262144 ≤ 244 := by
                omega
              have hcb1 : contByte (UriTok.esc (hexDigit ((128 + c.toNat / 4096 % 64) / 16))
                  (hexDigit ((128 + c.toNat / 4096 % 64) % 16)) (128 + c.toNat / 4096 % 64)) =
                  some (c.toNat / 4096 % 64) := by
                rw [contByte]
                rw [if_pos (by omega)]
                congr 1
                omega
              have hcb2 : contByte (UriTok.esc (hexDigit ((128 + c.toNat / 64 % 64) / 16))
                  (hexDigit ((128 + c.toNat / 64 % 64) % 16)) (128 + c.toNat / 64 % 64)) =
                  some (c.toNat / 64 % 64) := by
                rw [contByte]
                rw [if_pos (by omega)]
                congr 1
                omega
              have hcb3 : contByte (UriTok.esc (hexDigit ((128 + c.toNat % 64) / 16))
                  (hexDigit ((128 + c.toNat % 64) % 16)) (128 + c.toNat % 64)) =
                  some (c.toNat % 64) := by
                rw [contByte]
                rw [if_pos (by omega)]
                congr 1
                omega
              have harith : c.toNat / 262144 * 262144 + c.toNat / 4096 % 64 * 4096 +
                  c.toNat / 64 % 64 * 64 + c.toNat % 64 = c.toNat := by omega
              have harith2 : (240 + c.toNat / 262144 - 240) * 262144 +
                  c.toNat / 4096 % 64 * 4096 + c.toNat / 64 % 64 * 64 + c.toNat % 64 =
                  c.toNat := by omega
              have hcond : 65536 ≤ c.toNat ∧ c.toNat ≤ 1114111 := by omega
              simp [assembleF_esc, hc1, hc2, hc3, hc4, hcb1, hcb2, hcb3, ih fk (by omega),
                harith, harith2, hcond]

theorem decodeURI_encodeURI (d : List Char) : decodeURI (encodeURI d) = some d := by
  rw [decodeURI, tok_encodeURI]
  exact assembleF_encTokens d _ (Nat.le_refl _)

theorem sanitize_idem (p : List Char) : sanitizePath (sanitizePath p) = sanitizePath p := by
  cases hd : decodeURI p with
  | none =>
    have h1 : sanitizePath p = p := by rw [sanitizePath, hd]
    rw [h1]
    exact h1
  | some d =>
    have h1 : sanitizePath p = encodeURI d := by rw [sanitizePath, hd]
    rw [h1, sanitizePath, decodeURI_encodeURI]

/-! Lemmas about the DOM locator. -/

theorem mem_dedupNodes : ∀ (l : List TNode) (seen : List Nat) (tn : TNode),
    tn ∈ dedupNodes l seen → tn ∈ l := by
  intro l
  induction l with
  | nil => intro seen tn h; simp [dedupNodes] at h
  | cons x xs ih =>
    intro seen tn h
    rw [dedupNodes] at h
    split at h
    · exact List.mem_cons_of_mem _ (ih _ _ h)
    · rcases List.mem_cons.1 h with rfl | h2
      · exact List.mem_cons_self _ _
      · exact List.mem_cons_of_mem _ (ih _ _ h2)

theorem mem_scopeTexts : ∀ (scopes : List (List String × Dom)) (tn : TNode),
    tn ∈ scopeTexts scopes →
      ∃ pr ∈ scopes,
        tn ∈ (textNodesD pr.1 pr.2).filter (fun x => acceptText x.anc x.content) := by
  intro scopes
  induction scopes with
  | nil => intro tn h; simp [scopeTexts] at h
  | cons pr rest ih =>
    intro tn h
    rcases pr with ⟨anc, d⟩
    rw [scopeTexts] at h
    rcases List.mem_append.1 h with h1 | h1
    · exact ⟨(anc, d), List.mem_cons_self _ _, h1⟩
    · obtain ⟨q, hq, hq2⟩ := ih tn h1
      exact ⟨q, List.mem_cons_of_mem _ hq, hq2⟩

theorem acceptText_props {anc : List String} {s : List Char}
    (h : acceptText anc s = true) :
    (∀ p, anc.head? = some p → NON_RENDERED_TAGS.contains p = false) ∧
      anc.contains "A" = false ∧ containsMarker s = true := by
  cases anc with
  | nil =>
    refine ⟨?_, rfl, ?_⟩
    · intro p hp
      cases hp
    · simpa [acceptText] using h
  | cons p rest =>
    simp only [acceptText, List.head?_cons] at h
    split at h
    case isTrue h1 => cases h
    case isFalse h1 =>
      split at h
      case isTrue h2 => cases h
      case isFalse h2 =>
        refine ⟨?_, by simpa using h2, h⟩
        intro q hq
        simp only [List.head?_cons, Option.some.injEq] at hq
        subst hq
        simpa using h1

theorem allText_textD : ∀ (d : Dom) (anc : List String), isTextNode d = true →
    ∀ tn ∈ textNodesD anc d, tn.anc = anc := by
  intro d anc hd tn h
  cases d with
  | text tid s =>
    rw [textNodesD] at h
    rcases List.mem_singleton.1 h with rfl
    rfl
  | elem t c kids => simp [isTextNode] at hd

theorem allText_textF : ∀ (f : DomForest) (anc : List String), forestAllText f = true →
    ∀ tn ∈ textNodesF anc f, tn.anc = anc
  | .nil, _, _, tn, h => by simp [textNodesF] at h
  | .cons d ds, anc, hall, tn, h => by
    rw [forestAllText, Bool.and_eq_true] at hall
    rw [textNodesF] at h
    rcases List.mem_append.1 h with h1 | h1
    · exact allText_textD d anc hall.1 tn h1
    · exact allText_textF ds anc hall.2 tn h1

theorem allText_contF : ∀ (f : DomForest) (anc : List String), forestAllText f = true →
    findContainersF anc f = []
  | .nil, _, _ => rfl
  | .cons d ds, anc, hall => by
    rw [forestAllText, Bool.and_eq_true] at hall
    rw [findContainersF]
    have hd : findContainersD anc d = [] := by
      cases d with
      | text _ _ => rfl
      | elem t c kids => exact absurd hall.1 (by simp [isTextNode])
    rw [hd, allText_contF ds anc hall.2]
    rfl

mutual
theorem nrDeep_textD : ∀ (d : Dom) (anc : List String), rawTextOnlyD d = true →
    ∀ tn ∈ textNodesD anc d, ∀ t ∈ tn.anc,
      NON_RENDERED_TAGS.contains t = true → t ∈ anc ∨ tn.anc.head? = some t
  | .text tid s, anc, _, tn, h, t, ht, hnr => by
    rw [textNodesD] at h
    rcases List.mem_singleton.1 h with rfl
    exact Or.inl ht
  | .elem tag cls kids, anc, hraw, tn, h, t, ht, hnr => by
    rw [textNodesD] at h
    rw [rawTextOnlyD, Bool.and_eq_true] at hraw
    by_cases htag : NON_RENDERED_TAGS.contains tag = true
    · have hallt : forestAllText kids = true := by
        have h1 := hraw.1
        rwa [if_pos htag] at h1
      have hanc := allText_textF kids (tag :: anc) hallt tn h
      rw [hanc] at ht
      rcases List.mem_cons.1 ht with rfl | ht2
      · exact Or.inr (by rw [hanc]; rfl)
      · exact Or.inl ht2
    · have hrec := nrDeep_textF kids (tag :: anc) hraw.2 tn h t ht hnr
      rcases hrec with h1 | h1
      · rcases List.mem_cons.1 h1 with rfl | h2
        · exact absurd hnr (by simpa using htag)
        · exact Or.inl h2
      · exact Or.inr h1
theorem nrDeep_textF : ∀ (f : DomForest) (anc : List String), rawTextOnlyF f = true →
    ∀ tn ∈ textNodesF anc f, ∀ t ∈ tn.anc,
      NON_RENDERED_TAGS.contains t = true → t ∈ anc ∨ tn.anc.head? = some t
  | .nil, _, _, tn, h, _, _, _ => by simp [textNodesF] at h
  | .cons d ds, anc, hraw, tn, h, t, ht, hnr => by
    rw [rawTextOnlyF, Bool.and_eq_true] at hraw
    rw [textNodesF] at h
    rcases List.mem_append.1 h with h1 | h1
    · exact nrDeep_textD d anc hraw.1 tn h1 t ht hnr
    · exact nrDeep_textF ds anc hraw.2 tn h1 t ht hnr
end

mutual
theorem contOk_D : ∀ (d : Dom) (anc : List String), rawTextOnlyD d = true →
    (∀ t ∈ anc, NON_RENDERED_TAGS.contains t = false) →
    ∀ pr ∈ findContainersD anc d,
      (∀ t ∈ pr.1, NON_RENDERED_TAGS.contains t = false) ∧ rawTextOnlyD pr.2 = true
  | .text _ _, _, _, _, pr, h => by simp [findContainersD] at h
  | .elem tag cls kids, anc, hraw, hanc, pr, h => by
    have hraw2 := hraw
    rw [rawTextOnlyD, Bool.and_eq_true] at hraw2
    rw [findContainersD] at h
    rcases List.mem_append.1 h with h1 | h1
    · split at h1
      · rcases List.mem_singleton.1 h1 with rfl
        exact ⟨hanc, hraw⟩
      · simp at h1
    · by_cases htag : NON_RENDERED_TAGS.contains tag = true
      · have hallt : forestAllText kids = true := by
          have h2 := hraw2.1
          rwa [if_pos htag] at h2
        rw [allText_contF kids (tag :: anc) hallt] at h1
        simp at h1
      · have hanc2 : ∀ t ∈ tag :: anc, NON_RENDERED_TAGS.contains t = false := by
          intro t ht
          rcases List.mem_cons.1 ht with rfl | h2
          · simpa using htag
          · exact hanc t h2
        exact contOk_F kids (tag :: anc) hraw2.2 hanc2 pr h1
theorem contOk_F : ∀ (f : DomForest) (anc : List String), rawTextOnlyF f = true →
    (∀ t ∈ anc, NON_RENDERED_TAGS.contains t = false) →
    ∀ pr ∈ findContainersF anc f,
      (∀ t ∈ pr.1, NON_RENDERED_TAGS.contains t = false) ∧ rawTextOnlyD pr.2 = true
  | .nil, _, _, _, pr, h => by simp [findContainersF] at h
  | .cons d ds, anc, hraw, hanc, pr, h => by
    rw [rawTextOnlyF, Bool.and_eq_true] at hraw
    rw [findContainersF] at h
    rcases List.mem_append.1 h with h1 | h1
    · exact contOk_D d anc hraw.1 hanc pr h1
    · exact contOk_F ds anc hraw.2 hanc pr h1
end

theorem collect_scope_facts (doc : Dom) (tn : TNode)
    (h : tn ∈ collectMatchingNodes (findCodeContainers doc)) :
    ∃ pr ∈ findCodeContainers doc,
      tn ∈ textNodesD pr.1 pr.2 ∧ acceptText tn.anc tn.content = true := by
  have h1 := mem_dedupNodes _ _ _ h
  obtain ⟨pr, hpr, h2⟩ := mem_scopeTexts _ _ h1
  rw [List.mem_filter] at h2
  exact ⟨pr, hpr, h2.1, by simpa using h2.2⟩

theorem containers_facts (doc : Dom) (hraw : rawTextOnlyD doc = true) :
    ∀ pr ∈ findCodeContainers doc,
      (∀ t ∈ pr.1, NON_RENDERED_TAGS.contains t = false) ∧ rawTextOnlyD pr.2 = true := by
  intro pr h
  rw [findCodeContainers] at h
  split at h
  · rcases List.mem_singleton.1 h with rfl
    exact ⟨by intro t ht; simp at ht, hraw⟩
  case h_2 c cs hc =>
    refine contOk_D doc [] hraw (by intro t ht; simp at ht) pr ?_
    rw [hc]
    exact h

/-! Lemmas about the run controller. -/

theorem run_count_flags (valid : List Char → Bool) :
    ∀ (tids : List Nat) (dom : Dom),
      (runReplacements valid dom tids).2 = (replacedFlags valid dom tids).count true := by
  intro tids
  induction tids with
  | nil => intro dom; simp [runReplacements, replacedFlags]
  | cons tid rest ih =>
    intro dom
    simp only [runReplacements, replacedFlags]
    rw [ih]
    cases (replaceTextNodeWithDocsLinks valid dom tid).2 <;>
      simp [List.count_cons]
    omega

theorem replace_made_iff (valid : List Char → Bool) (dom : Dom) (tid : Nat) :
    (replaceTextNodeWithDocsLinks valid dom tid).2 = true ↔
      ∃ s, findTextD tid dom = some s ∧
        buildFragmentFromMatches valid DOCS_BASE_URL s ≠ none := by
  rw [replaceTextNodeWithDocsLinks]
  cases hf : findTextD tid dom with
  | none => simp
  | some s =>
    cases hb : buildFragmentFromMatches valid DOCS_BASE_URL s with
    | none => simp [hb]
    | some pr =>
      rcases pr with ⟨frags, warns⟩
      simp [hb]

theorem resolve_run {valid : List Char → Bool} {st : BrowserState}
    (h : ¬ st.ran = some st.href) :
    resolveExternalDocsUrls valid st =
      { st with
        ran := some st.href
        dom := (passResult valid st.dom).1
        clickListeners :=
          st.clickListeners + (if 0 < (passResult valid st.dom).2 then 1 else 0)
        moveListeners :=
          st.moveListeners + (if 0 < (passResult valid st.dom).2 then 1 else 0)
        report := some (passResult valid st.dom).2 } := by
  simp [resolveExternalDocsUrls, if_neg h]

/-! The claims. -/

/-- C1: for every input text and base URL, the fragment built by the
replacement engine preserves all text outside placeholder spans: when
matches exist the engine yields exactly one link per scanner match,
the fragment concatenates back to the original text with each
placeholder span replaced by its resolved URL, and substituting every
span by its own original text is the identity, so characters outside
the spans are neither lost, reordered nor duplicated. -/
theorem c1_fragment_preserves_text (base text : List Char) :
    (buildFragmentFromMatches (fun _ => true) base text = none → findMatches text = []) ∧
    (∀ frags warns,
      buildFragmentFromMatches (fun _ => true) base text = some (frags, warns) →
        countLinkFrags frags = (findMatches text).length ∧
        flattenFrags frags = substPlaceholders (fun _ => true) base text) ∧
    substPlaceholders (fun _ => false) base text = text := by
  refine ⟨?_, ?_, subst_false_id base text.length text (Nat.le_refl _)⟩
  · intro h
    rw [buildFragmentFromMatches] at h
    cases hm : findMatches text with
    | nil => rfl
    | cons m ms => rw [hm] at h; cases h
  · intro frags warns h
    rw [buildFragmentFromMatches] at h
    cases hm : findMatches text with
    | nil => rw [hm] at h; cases h
    | cons m ms =>
      rw [hm] at h
      injection h with h2
      have hfr : frags = (fragsOfMatches (fun _ => true) base text (m :: ms) 0).1 := by
        rw [h2]
      constructor
      · rw [hfr, count_fragsOfMatches]
        simp
      · have hfl := flatten_scan (fun _ => true) base text text.length text 0
          (Nat.le_refl _) (List.drop_zero text)
        have hsc : scanAux text.length text 0 = m :: ms := hm
        rw [hsc] at hfl
        rw [hfr, hfl]
        rfl

/-- Witness for C1 on a one-match input. -/
theorem c1_fragment_preserves_text_witness :
    buildFragmentFromMatches (fun _ => true) DOCS_BASE_URL ("${externalDocsUrl}/x".data) =
      some ([Frag.link (DOCS_BASE_URL ++ ['x'])], []) ∧
      (countLinkFrags [Frag.link (DOCS_BASE_URL ++ ['x'])] =
          (findMatches ("${externalDocsUrl}/x".data)).length ∧
        flattenFrags [Frag.link (DOCS_BASE_URL ++ ['x'])] =
          substPlaceholders (fun _ => true) DOCS_BASE_URL ("${externalDocsUrl}/x".data)) :=
  ⟨by decide,
    (c1_fragment_preserves_text DOCS_BASE_URL ("${externalDocsUrl}/x".data)).2.1
      [Frag.link (DOCS_BASE_URL ++ ['x'])] [] (by decide)⟩

/-- C2: scanner matching is greedy within the allow-list and stops at
the first disallowed character; on the boundary input with a trailing
close-paren the captured path stops before the paren, the produced
link's URL is the base URL plus that path, and the paren remains as
trailing plain text. -/
theorem c2_greedy_boundary :
    (∀ (s path : List Char), tryMatchAt s = some path →
      path ≠ [] ∧ (∀ c ∈ path, allowedPathChar c = true) ∧
        ∀ c rest2, (s.drop 19).drop path.length = c :: rest2 →
          allowedPathChar c = false) ∧
    (findMatches c2Input).map PMatch.path = [c2Path] ∧
    buildFragmentFromMatches (fun _ => true) DOCS_BASE_URL c2Input =
      some ([Frag.link c2Url, Frag.txt [')']], []) :=
  ⟨fun _ _ h => tryMatchAt_greedy h, by decide, by decide⟩

/-- Witness for C2 at the boundary input itself. -/
theorem c2_greedy_boundary_witness :
    tryMatchAt c2Input = some c2Path ∧
      (c2Path ≠ [] ∧ (∀ c ∈ c2Path, allowedPathChar c = true) ∧
        ∀ c rest2, (c2Input.drop 19).drop c2Path.length = c :: rest2 →
          allowedPathChar c = false) :=
  ⟨by decide, c2_greedy_boundary.1 c2Input c2Path (by decide)⟩

/-- C3: at most one replacement pass per page address: when the
recorded run identity equals the current address the entry point is a
silent no-op returning the state unchanged, and running the entry
point twice equals running it once. -/
theorem c3_run_guard (valid : List Char → Bool) (st : BrowserState) :
    (st.ran = some st.href → resolveExternalDocsUrls valid st = st) ∧
      resolveExternalDocsUrls valid (resolveExternalDocsUrls valid st) =
        resolveExternalDocsUrls valid st := by
  constructor
  · intro h
    rw [resolveExternalDocsUrls, if_pos h]
  · by_cases h : st.ran = some st.href
    · have h1 : resolveExternalDocsUrls valid st = st := by
        rw [resolveExternalDocsUrls, if_pos h]
      rw [h1]
      exact h1
    · have h1 := @resolve_run valid st h
      have h2 : (resolveExternalDocsUrls valid st).ran =
          some (resolveExternalDocsUrls valid st).href := by
        rw [h1]
      conv_lhs => rw [resolveExternalDocsUrls, if_pos h2]

/-- Witness for C3 on a state whose guard already fired. -/
theorem c3_run_guard_witness :
    guardedSt.ran = some guardedSt.href ∧
      resolveExternalDocsUrls (fun _ => true) guardedSt = guardedSt :=
  ⟨by decide, (c3_run_guard (fun _ => true) guardedSt).1 (by decide)⟩

/-- C4: the path sanitizer is idempotent on allow-listed inputs. -/
theorem c4_sanitize_idempotent (p : List Char) (_h : p.all allowedPathChar = true) :
    sanitizePath (sanitizePath p) = sanitizePath p :=
  sanitize_idem p

/-- Witness for C4 on a pre-encoded path. -/
theorem c4_sanitize_idempotent_witness :
    ("foo%20bar".data).all allowedPathChar = true ∧
      sanitizePath (sanitizePath ("foo%20bar".data)) = sanitizePath ("foo%20bar".data) :=
  ⟨by decide, c4_sanitize_idempotent ("foo%20bar".data) (by decide)⟩

/-- C5: the sanitizer is total (a Lean function, so it always
terminates and never throws): when decoding fails it returns the raw
path unchanged, when decoding succeeds it is the re-encoded decode,
and the trailing-percent input is such a failing input. -/
theorem c5_sanitize_total_fallback (p : List Char) :
    (decodeURI p = none → sanitizePath p = p) ∧
      (∀ d, decodeURI p = some d → sanitizePath p = encodeURI d) ∧
      decodeURI ("foo%".data) = none ∧
      sanitizePath ("foo%".data) = "foo%".data := by
  refine ⟨?_, ?_, by decide, by decide⟩
  · intro h
    rw [sanitizePath, h]
  · intro d h
    rw [sanitizePath, h]

/-- Witness for C5 at the trailing-percent input. -/
theorem c5_sanitize_total_fallback_witness :
    decodeURI ("foo%".data) = none ∧ sanitizePath ("foo%".data) = "foo%".data :=
  ⟨by decide, (c5_sanitize_total_fallback ("foo%".data)).1 (by decide)⟩

/-- C6: a match whose constructed URL fails validation is kept as its
original unmodified text instead of a link, a diagnostic naming the
original text and the attempted URL is recorded, and no link whose URL
fails validation is ever inserted. -/
theorem c6_invalid_url_fallback (valid : List Char → Bool) (text : List Char)
    (frags : List Frag) (warns : List (List Char × List Char))
    (h : buildFragmentFromMatches valid DOCS_BASE_URL text = some (frags, warns)) :
    (∀ u, Frag.link u ∈ frags → valid u = true) ∧
      warns = (findMatches text).filterMap (fun m =>
        if valid (urlOfMatch DOCS_BASE_URL m) then none
        else some (m.raw, urlOfMatch DOCS_BASE_URL m)) ∧
      flattenFrags frags = substPlaceholders valid DOCS_BASE_URL text := by
  rw [buildFragmentFromMatches] at h
  cases hm : findMatches text with
  | nil => rw [hm] at h; cases h
  | cons m ms =>
    rw [hm] at h
    injection h with h2
    have hfr : frags = (fragsOfMatches valid DOCS_BASE_URL text (m :: ms) 0).1 := by
      rw [h2]
    have hwa : warns = (fragsOfMatches valid DOCS_BASE_URL text (m :: ms) 0).2 := by
      rw [h2]
    refine ⟨?_, ?_, ?_⟩
    · intro u hu
      rw [hfr] at hu
      exact link_valid_fragsOfMatches valid DOCS_BASE_URL text (m :: ms) 0 u hu
    · rw [hwa, warns_fragsOfMatches]
    · have hfl := flatten_scan valid DOCS_BASE_URL text text.length text 0
        (Nat.le_refl _) (List.drop_zero text)
      have hsc : scanAux text.length text 0 = m :: ms := hm
      rw [hsc] at hfl
      rw [hfr, hfl]
      rfl

/-- Witness for C6 under an oracle that rejects every URL. -/
theorem c6_invalid_url_fallback_witness :
    buildFragmentFromMatches (fun _ => false) DOCS_BASE_URL ("${externalDocsUrl}/x".data) =
      some ([Frag.txt ("${externalDocsUrl}/x".data)],
        [("${externalDocsUrl}/x".data, DOCS_BASE_URL ++ ['x'])]) ∧
      ∀ u, Frag.link u ∈ [Frag.txt ("${externalDocsUrl}/x".data)] →
        (fun _ => false) u = true :=
  ⟨by decide,
    (c6_invalid_url_fallback (fun _ => false) ("${externalDocsUrl}/x".data)
      [Frag.txt ("${externalDocsUrl}/x".data)]
      [("${externalDocsUrl}/x".data, DOCS_BASE_URL ++ ['x'])] (by decide)).1⟩

/-- C7: the locator never selects a text node inside an existing
anchor at any depth nor inside a non-rendered element: a collected
node's parent tag is never non-rendered, no ancestor is an anchor, and
in a well-formed tree (non-rendered elements hold only text, as the
HTML parser guarantees) no ancestor at any depth is non-rendered —
for the scopes the controller produces, including the whole-body
fallback. -/
theorem c7_locator_exclusions (doc : Dom) (tn : TNode)
    (h : tn ∈ collectMatchingNodes (findCodeContainers doc)) :
    (∀ p, tn.anc.head? = some p → NON_RENDERED_TAGS.contains p = false) ∧
      tn.anc.contains "A" = false ∧
      (rawTextOnlyD doc = true →
        ∀ t ∈ tn.anc, NON_RENDERED_TAGS.contains t = false) := by
  obtain ⟨pr, hpr, hmem, hacc⟩ := collect_scope_facts doc tn h
  obtain ⟨hhead, hA, _⟩ := acceptText_props hacc
  refine ⟨hhead, hA, ?_⟩
  intro hraw t ht
  obtain ⟨hctx, hrawc⟩ := containers_facts doc hraw pr hpr
  cases hnr : NON_RENDERED_TAGS.contains t with
  | false => rfl
  | true =>
    rcases nrDeep_textD pr.2 pr.1 hrawc tn hmem t ht hnr with h1 | h1
    · have h2 := hctx t h1
      rw [h2] at hnr
      cases hnr
    · have h2 := hhead t h1
      rw [h2] at hnr
      cases hnr

/-- Witness for C7 on a document with a placeholder inside a script, an
anchor and a plain division: only the division's text is collected. -/
theorem c7_locator_exclusions_witness :
    (⟨3, ["DIV", "BODY"], "${externalDocsUrl}/x".data⟩ : TNode) ∈
        collectMatchingNodes (findCodeContainers mixedDom) ∧
      ((∀ p, (["DIV", "BODY"] : List String).head? = some p →
          NON_RENDERED_TAGS.contains p = false) ∧
        (["DIV", "BODY"] : List String).contains "A" = false ∧
        (rawTextOnlyD mixedDom = true →
          ∀ t ∈ (["DIV", "BODY"] : List String),
            NON_RENDERED_TAGS.contains t = false)) :=
  ⟨by decide,
    c7_locator_exclusions mixedDom ⟨3, ["DIV", "BODY"], "${externalDocsUrl}/x".data⟩
      (by decide)⟩

/-- C8 as stated is false: on a page whose single candidate text node
holds two placeholders, the pass inserts two links while the per-node
operation returns only a Boolean and the summary reports one replaced
occurrence, so the reported summary is not the number of links
inserted. -/
theorem c8_counterexample :
    countATagsD twoMatchSt.dom = 0 ∧
      (resolveExternalDocsUrls (fun _ => true) twoMatchSt).report = some 1 ∧
      countATagsD (resolveExternalDocsUrls (fun _ => true) twoMatchSt).dom = 2 ∧
      ¬ (resolveExternalDocsUrls (fun _ => true) twoMatchSt).report =
          some (countATagsD (resolveExternalDocsUrls (fun _ => true) twoMatchSt).dom) :=
  ⟨by decide, by decide, by decide, by decide⟩

/-- C8 amended: the per-node replacement returns a Boolean saying
whether the node was replaced — true exactly when the node is still
attached and its text has at least one match — and the reported
summary equals the number of nodes replaced during the pass (the
number of per-node calls that returned true), not the number of links
inserted. -/
theorem c8_report_counts_nodes (valid : List Char → Bool) (st : BrowserState)
    (h : ¬ st.ran = some st.href) :
    (resolveExternalDocsUrls valid st).report = some (passResult valid st.dom).2 ∧
      (∀ dom tid, (replaceTextNodeWithDocsLinks valid dom tid).2 = true ↔
        ∃ s, findTextD tid dom = some s ∧
          buildFragmentFromMatches valid DOCS_BASE_URL s ≠ none) ∧
      ∀ dom tids, (runReplacements valid dom tids).2 =
        (replacedFlags valid dom tids).count true := by
  refine ⟨?_, replace_made_iff valid, fun dom tids => run_count_flags valid tids dom⟩
  rw [resolve_run h]

/-- Witness for C8 amended on the two-placeholder page. -/
theorem c8_report_counts_nodes_witness :
    ¬ twoMatchSt.ran = some twoMatchSt.href ∧
      (resolveExternalDocsUrls (fun _ => true) twoMatchSt).report =
        some (passResult (fun _ => true) twoMatchSt.dom).2 :=
  ⟨by decide, (c8_report_counts_nodes (fun _ => true) twoMatchSt (by decide)).1⟩

/-- C9: the delegated click and hover handlers are installed if and
only if the pass replaced at least one node; a zero-replacement pass
adds no document-level listeners. -/
theorem c9_handlers_iff_replaced (valid : List Char → Bool) (st : BrowserState)
    (h : ¬ st.ran = some st.href) :
    ((resolveExternalDocsUrls valid st).clickListeners = st.clickListeners ∧
      (resolveExternalDocsUrls valid st).moveListeners = st.moveListeners) ↔
      (passResult valid st.dom).2 = 0 := by
  rw [resolve_run h]
  by_cases hz : 0 < (passResult valid st.dom).2
  · simp only [if_pos hz]
    constructor
    · intro hcl
      omega
    · intro hcl
      omega
  · simp only [if_neg hz]
    constructor
    · intro _
      omega
    · intro _
      omega

/-- Witness for C9 on a page with no placeholder. -/
theorem c9_handlers_iff_replaced_witness :
    ¬ quietSt.ran = some quietSt.href ∧
      (passResult (fun _ => true) quietSt.dom).2 = 0 ∧
      (resolveExternalDocsUrls (fun _ => true) quietSt).clickListeners =
          quietSt.clickListeners ∧
      (resolveExternalDocsUrls (fun _ => true) quietSt).moveListeners =
          quietSt.moveListeners := by
  refine ⟨by decide, by decide, ?_, ?_⟩
  · exact ((c9_handlers_iff_replaced (fun _ => true) quietSt (by decide)).2 (by decide)).1
  · exact ((c9_handlers_iff_replaced (fun _ => true) quietSt (by decide)).2 (by decide)).2

/-- C10: the substring pre-filter is complete with respect to the
scanner — a text with at least one pattern match contains the literal
marker, so filtering candidates by marker containment never excludes a
node in which the engine would produce a replacement. -/
theorem c10_prefilter_complete (s : List Char) :
    (findMatches s ≠ [] → containsMarker s = true) ∧
      ∀ (valid : List Char → Bool) (base : List Char) r,
        buildFragmentFromMatches valid base s = some r → containsMarker s = true := by
  have hmain : findMatches s ≠ [] → containsMarker s = true := fun h =>
    scan_marker s.length s 0 h
  refine ⟨hmain, ?_⟩
  intro valid base r h
  rw [buildFragmentFromMatches] at h
  cases hm : findMatches s with
  | nil => rw [hm] at h; cases h
  | cons m ms =>
    refine hmain ?_
    rw [hm]
    simp

/-- Witness for C10 at a matching input. -/
theorem c10_prefilter_complete_witness :
    findMatches ("${externalDocsUrl}/x".data) ≠ [] ∧
      containsMarker ("${externalDocsUrl}/x".data) = true :=
  ⟨by decide, (c10_prefilter_complete ("${externalDocsUrl}/x".data)).1 (by decide)⟩

end Bookmarklet
